import Mathlib

set_option maxHeartbeats 8000000

/-!
Shallow embedding of the knowledge engine in src/minesweeper.py.

Cells are pairs of integers (Python tuples of ints), Python sets of cells
become Finsets, the knowledge base (a Python list of Sentence objects)
becomes a List of sentences.  Python ints are modelled by Int.  The two
Python classes embedded here are Sentence and MinesweeperAI; the random
choice in make_random_move is modelled by an arbitrary index parameter,
and the while-loop in update_knowledge by a fuel-indexed recursion whose
fuel is shown elsewhere in this file to be sufficient.
-/

abbrev Cell := Int × Int

/-- Embeds the Sentence class: a set of board cells together with a count of
how many of those cells are mines.  Python value equality on Sentence
compares both fields, which is structural equality here. -/
structure Sentence where
  cells : Finset Cell
  count : Int
deriving DecidableEq

/-- Embeds Sentence.known_mines: all cells if the count equals the number of
cells and is nonzero, else the empty set. -/
def Sentence.known_mines (s : Sentence) : Finset Cell :=
  if s.count = (s.cells.card : Int) ∧ s.count ≠ 0 then s.cells else ∅

/-- Embeds Sentence.known_safes: all cells if the count is zero, else the
empty set. -/
def Sentence.known_safes (s : Sentence) : Finset Cell :=
  if s.count = 0 then s.cells else ∅

/-- Embeds Sentence.mark_mine: if the cell is a member, remove it and
decrement the count; otherwise leave the sentence unchanged. -/
def Sentence.mark_mine (s : Sentence) (cell : Cell) : Sentence :=
  if cell ∈ s.cells then ⟨s.cells.erase cell, s.count - 1⟩ else s

/-- Embeds Sentence.mark_safe: if the cell is a member, remove it; the count
is unchanged. -/
def Sentence.mark_safe (s : Sentence) (cell : Cell) : Sentence :=
  if cell ∈ s.cells then ⟨s.cells.erase cell, s.count⟩ else s

/-- Embeds the mutable state of the MinesweeperAI class. -/
structure AI where
  height : Nat
  width : Nat
  moves_made : Finset Cell
  mines : Finset Cell
  safes : Finset Cell
  knowledge : List Sentence
deriving DecidableEq

/-- Embeds MinesweeperAI.mark_mine: add the cell to mines and update every
sentence in the knowledge base. -/
def AI.mark_mine (st : AI) (cell : Cell) : AI :=
  { st with mines := insert cell st.mines,
            knowledge := st.knowledge.map (fun s => s.mark_mine cell) }

/-- Embeds MinesweeperAI.mark_safe: add the cell to safes and update every
sentence in the knowledge base. -/
def AI.mark_safe (st : AI) (cell : Cell) : AI :=
  { st with safes := insert cell st.safes,
            knowledge := st.knowledge.map (fun s => s.mark_safe cell) }

/-- The union of known_safes over the knowledge base, as accumulated by the
scan at the top of each update_knowledge iteration. -/
def safesFound (kb : List Sentence) : Finset Cell :=
  kb.foldl (fun acc s => acc ∪ s.known_safes) ∅

/-- The union of known_mines over the knowledge base, as accumulated by the
scan at the top of each update_knowledge iteration. -/
def minesFound (kb : List Sentence) : Finset Cell :=
  kb.foldl (fun acc s => acc ∪ s.known_mines) ∅

/-- Embeds the list comprehension removing sentences with an empty cell set
at the end of each update_knowledge iteration. -/
def filterNonempty (kb : List Sentence) : List Sentence :=
  kb.filter (fun s => decide (s.cells ≠ ∅))

/-- Marking every cell of a set safe, one mark_safe call per cell.  Python
iterates the scanned set in an unspecified order; the result is the same for
every order, namely this batch update (the lemma foldl_mark_safe_eq_batch
below proves the agreement with the per-cell foldl for every ordering). -/
def markSafesBatch (S : Finset Cell) (st : AI) : AI :=
  { st with safes := st.safes ∪ S,
            knowledge := st.knowledge.map (fun s => ⟨s.cells \ S, s.count⟩) }

/-- Marking every cell of a set as a mine, one mark_mine call per cell; the
per-cell calls agree with this batch update for every iteration order (lemma
foldl_mark_mine_eq_batch below). -/
def markMinesBatch (S : Finset Cell) (st : AI) : AI :=
  { st with mines := st.mines ∪ S,
            knowledge := st.knowledge.map
              (fun s => ⟨s.cells \ S, s.count - ((s.cells ∩ S).card : Int)⟩) }

/-- One iteration of the update_knowledge while-loop body: scan for known
safes and mines, mark them all (safes first, then mines, matching the code),
then drop sentences whose cell set became empty. -/
def updatePass (st : AI) : AI :=
  let st1 := markSafesBatch (safesFound st.knowledge) st
  let st2 := markMinesBatch (minesFound st.knowledge) st1
  { st2 with knowledge := filterNonempty st2.knowledge }

/-- The update_knowledge while-loop with explicit fuel: the loop body runs,
and the loop repeats exactly when the scan found at least one safe or mine
(the knowledge_updated flag).  Running out of fuel yields none. -/
def updateKnowledgeFuel : Nat → AI → Option AI
  | 0, _ => none
  | n + 1, st =>
    if (safesFound st.knowledge).Nonempty ∨ (minesFound st.knowledge).Nonempty
    then updateKnowledgeFuel n (updatePass st)
    else some (updatePass st)

/-- Total number of cell occurrences across the knowledge base, the measure
that bounds the number of update_knowledge iterations. -/
def totalCells (kb : List Sentence) : Nat :=
  (kb.map (fun s => s.cells.card)).sum

/-- Embeds MinesweeperAI.update_knowledge.  The fuel totalCells + 1 is
sufficient (proved below), so the getD default is never taken. -/
def AI.update_knowledge (st : AI) : AI :=
  (updateKnowledgeFuel (totalCells st.knowledge + 1) st).getD st

/-- The inner for-loop of infer_new_sentences for a fixed first sentence s1:
fold over the knowledge base, skipping s2 equal to s1, and for each s2 whose
cell set contains that of s1, append the derived sentence unless it is
already in the accumulator new_knowledge. -/
def inferInner (kb : List Sentence) (s1 : Sentence) (acc : List Sentence) : List Sentence :=
  kb.foldl
    (fun acc2 s2 =>
      if s1 = s2 then acc2
      else if s1.cells ⊆ s2.cells then
        if (⟨s2.cells \ s1.cells, s2.count - s1.count⟩ : Sentence) ∈ acc2 then acc2
        else acc2 ++ [⟨s2.cells \ s1.cells, s2.count - s1.count⟩]
      else acc2)
    acc

/-- The new_knowledge list built by the two nested loops of
infer_new_sentences. -/
def inferBatch (kb : List Sentence) : List Sentence :=
  kb.foldl (fun acc s1 => inferInner kb s1 acc) []

/-- Embeds MinesweeperAI.infer_new_sentences: extend the knowledge base with
the batch of newly inferred sentences. -/
def AI.infer_new_sentences (st : AI) : AI :=
  { st with knowledge := st.knowledge ++ inferBatch st.knowledge }

/-- The bounds check 0 <= r < height and 0 <= c < width used on neighbor
candidates in add_knowledge and implicitly by the grid iteration in
make_random_move. -/
def InBounds (h w : Nat) (c : Cell) : Prop :=
  0 ≤ c.1 ∧ c.1 < (h : Int) ∧ 0 ≤ c.2 ∧ c.2 < (w : Int)

instance (h w : Nat) (c : Cell) : Decidable (InBounds h w c) := by
  unfold InBounds; infer_instance

/-- The eight neighbor candidates of a cell, in the drow/dcol loop order of
add_knowledge, before the bounds check. -/
def neighborList (c : Cell) : List Cell :=
  ([-1, 0, 1] : List Int).flatMap (fun dr =>
    ([-1, 0, 1] : List Int).filterMap (fun dc =>
      if dr = 0 ∧ dc = 0 then none else some (c.1 + dr, c.2 + dc)))

/-- Embeds MinesweeperAI.add_knowledge: record the move, mark the cell safe,
build the new sentence from the in-bounds neighbors that are not already
known mines (counted into known_mines_count) and not already known safe,
append it when nonempty, then run update_knowledge and the inference pass. -/
def AI.add_knowledge (st : AI) (cell : Cell) (count : Int) : AI :=
  let st1 : AI := { st with moves_made := insert cell st.moves_made }
  let st2 : AI := st1.mark_safe cell
  let inb : List Cell :=
    (neighborList cell).filter (fun n => decide (InBounds st.height st.width n))
  let kmc : Int := ((inb.filter (fun n => decide (n ∈ st2.mines))).length : Int)
  let newCells : Finset Cell :=
    (inb.filter (fun n => decide (n ∉ st2.mines) && decide (n ∉ st2.safes))).toFinset
  let st3 : AI :=
    if newCells.Nonempty
    then { st2 with knowledge := st2.knowledge ++ [⟨newCells, count - kmc⟩] }
    else st2
  st3.update_knowledge.infer_new_sentences

/-- The state of add_knowledge after step 1 (record the move). -/
def obsState1 (st : AI) (cell : Cell) : AI :=
  { st with moves_made := insert cell st.moves_made }

/-- The state of add_knowledge after step 2 (mark the observed cell safe). -/
def obsState2 (st : AI) (cell : Cell) : AI :=
  (obsState1 st cell).mark_safe cell

/-- The in-bounds neighbor candidates examined by the loop of step 3. -/
def obsInb (st : AI) (cell : Cell) : List Cell :=
  (neighborList cell).filter (fun n => decide (InBounds st.height st.width n))

/-- The known_mines_count accumulated by the loop of step 3. -/
def obsKmc (st : AI) (cell : Cell) : Int :=
  (((obsInb st cell).filter (fun n => decide (n ∈ (obsState2 st cell).mines))).length : Int)

/-- The new_cells set accumulated by the loop of step 3. -/
def obsNewCells (st : AI) (cell : Cell) : Finset Cell :=
  ((obsInb st cell).filter (fun n =>
    decide (n ∉ (obsState2 st cell).mines) && decide (n ∉ (obsState2 st cell).safes))).toFinset

/-- The state of add_knowledge after step 3 (append the new sentence when its
cell set is nonempty). -/
def obsState3 (st : AI) (cell : Cell) (count : Int) : AI :=
  if (obsNewCells st cell).Nonempty
  then { obsState2 st cell with
          knowledge := (obsState2 st cell).knowledge
            ++ [⟨obsNewCells st cell, count - obsKmc st cell⟩] }
  else obsState2 st cell

/-- The choices list built by make_random_move: all grid cells, in row-major
order, that are neither moves already made nor known mines. -/
def choicesList (st : AI) : List Cell :=
  (List.range st.height).flatMap (fun (i : Nat) =>
    (List.range st.width).filterMap (fun (j : Nat) =>
      if ((i : Int), (j : Int)) ∉ st.moves_made ∧ ((i : Int), (j : Int)) ∉ st.mines
      then some ((i : Int), (j : Int))
      else none))

/-- Embeds MinesweeperAI.make_random_move; the random.choice on the
nonempty choices list is modelled by an arbitrary pick index reduced
modulo the list length. -/
def AI.make_random_move (st : AI) (pick : Nat) : Option Cell :=
  let choices := choicesList st
  if choices.isEmpty then none
  else choices[pick % choices.length]?

/-- The full set of grid cells, as integer pairs. -/
def gridCells (st : AI) : Finset Cell :=
  ((Finset.range st.height) ×ˢ (Finset.range st.width)).image
    (fun p => ((p.1 : Int), (p.2 : Int)))

/-- The initial MinesweeperAI state: empty sets and an empty knowledge
base. -/
def initAI (h w : Nat) : AI :=
  { height := h, width := w, moves_made := ∅, mines := ∅, safes := ∅, knowledge := [] }

/-- Run a sequence of add_knowledge calls from a given state. -/
def runFrom (st : AI) (obs : List (Cell × Int)) : AI :=
  obs.foldl (fun s o => s.add_knowledge o.1 o.2) st

/-- Run a sequence of add_knowledge calls from the initial state. -/
def runGame (h w : Nat) (obs : List (Cell × Int)) : AI :=
  runFrom (initAI h w) obs

/-- The in-bounds 8-neighborhood of a cell, as a Finset. -/
def inBoundsNbrs (h w : Nat) (c : Cell) : Finset Cell :=
  ((neighborList c).filter (fun n => decide (InBounds h w n))).toFinset

/-- The caller contract for one observation fed to add_knowledge, relative
to a ground-truth mine set M: the observed cell is in bounds, is not a mine,
and the reported count is the exact number of mines among its in-bounds
neighbors. -/
def ContractOK (h w : Nat) (M : Finset Cell) (o : Cell × Int) : Prop :=
  InBounds h w o.1 ∧ o.1 ∉ M ∧ o.2 = ((inBoundsNbrs h w o.1 ∩ M).card : Int)

instance (h w : Nat) (M : Finset Cell) (o : Cell × Int) : Decidable (ContractOK h w M o) := by
  unfold ContractOK; infer_instance

/-- Frame relation between an engine state and a later one: the grid
dimensions and the move set are unchanged while the safe and mine sets have
only grown.  Every engine operation except add_knowledge (which inserts the
observed cell into moves_made) relates a state to its successor this way. -/
def Carries (st st' : AI) : Prop :=
  st'.height = st.height ∧ st'.width = st.width ∧ st'.moves_made = st.moves_made ∧
    st.safes ⊆ st'.safes ∧ st.mines ⊆ st'.mines

/-- Soundness invariant for claim C4, relative to a ground-truth mine set M:
no safe cell is a mine, every known mine is a mine, and every sentence
counts exactly the mines among its cells. -/
def Faithful (M : Finset Cell) (st : AI) : Prop :=
  (∀ c ∈ st.safes, c ∉ M) ∧ st.mines ⊆ M ∧
    ∀ s ∈ st.knowledge, ((s.cells ∩ M).card : Int) = s.count

/-- Bounds invariant for claim C10: every cell mentioned by any sentence of
the knowledge base lies inside the grid. -/
def KBBounded (st : AI) : Prop :=
  ∀ s ∈ st.knowledge, ∀ c ∈ s.cells, InBounds st.height st.width c

/-- Concrete state for claim C1: the knowledge base already contains the
sentence that the pairwise-inference pass will derive again. -/
def stC1 : AI :=
  { height := 2, width := 2, moves_made := ∅, mines := ∅, safes := ∅,
    knowledge := [⟨{((0 : Int), (0 : Int))}, 0⟩,
                  ⟨{((0 : Int), (0 : Int)), ((0 : Int), (1 : Int))}, 1⟩,
                  ⟨{((0 : Int), (1 : Int))}, 1⟩] }

/-- Concrete state for claim C6: a knowledge base holding the two sentences
of the scenario, on a 5 by 5 grid, before an observation far away from
them. -/
def stC6 : AI :=
  { height := 5, width := 5, moves_made := ∅, mines := ∅, safes := ∅,
    knowledge := [⟨{((0 : Int), (0 : Int)), ((0 : Int), (1 : Int))}, 1⟩,
                  ⟨{((0 : Int), (0 : Int)), ((0 : Int), (1 : Int)), ((0 : Int), (2 : Int))}, 1⟩] }

/-- The state reached by the first add_knowledge call of the C6 scenario,
written out explicitly. -/
def stC6r : AI :=
  { height := 5, width := 5,
    moves_made := {((4 : Int), (4 : Int))},
    mines := ∅,
    safes := {((4 : Int), (4 : Int)), ((3 : Int), (3 : Int)), ((3 : Int), (4 : Int)),
              ((4 : Int), (3 : Int))},
    knowledge := [⟨{((0 : Int), (0 : Int)), ((0 : Int), (1 : Int))}, 1⟩,
                  ⟨{((0 : Int), (0 : Int)), ((0 : Int), (1 : Int)), ((0 : Int), (2 : Int))}, 1⟩,
                  ⟨{((0 : Int), (2 : Int))}, 0⟩] }

/-! Basic lemmas about the sentence update operations. -/

theorem Sentence.eta (s : Sentence) : (⟨s.cells, s.count⟩ : Sentence) = s := rfl

/-- The safe-marking update of a sentence always just erases the cell. -/
theorem Sentence.mark_safe_eq (s : Sentence) (c : Cell) :
    s.mark_safe c = ⟨s.cells.erase c, s.count⟩ := by
  unfold Sentence.mark_safe
  split
  · rfl
  · rename_i h
    rw [Finset.erase_eq_of_not_mem h]

/-- The mine-marking update of a sentence in closed form: remove the cell and
subtract the number of removed occurrences from the count. -/
theorem Sentence.mark_mine_eq (s : Sentence) (c : Cell) :
    s.mark_mine c = ⟨s.cells \ {c}, s.count - ((s.cells ∩ {c}).card : Int)⟩ := by
  unfold Sentence.mark_mine
  split
  · rename_i h
    rw [Finset.inter_singleton_of_mem h, ← Finset.erase_eq]
    simp
  · rename_i h
    rw [Finset.inter_singleton_of_not_mem h, ← Finset.erase_eq, Finset.erase_eq_of_not_mem h]
    simp

/-- Removing one cell and then a set of cells removes their union. -/
theorem sdiff_singleton_sdiff (A T : Finset Cell) (c : Cell) :
    (A \ {c}) \ T = A \ insert c T := by
  ext x
  simp only [Finset.mem_sdiff, Finset.mem_singleton, Finset.mem_insert, not_or]
  tauto

/-- Mapping one function after another over a list is mapping the
composite. -/
theorem map_comp_eq_map {α : Type} (f g k : α → α) (hc : ∀ s, g (f s) = k s) :
    ∀ kb : List α, (kb.map f).map g = kb.map k := by
  intro kb
  induction kb with
  | nil => rfl
  | cons s t ih => simp only [List.map_cons, hc, ih]

/-- Marking the cells of a list safe one at a time, in any order, is the
batch update on the corresponding set. -/
theorem foldl_mark_safe_eq_batch (l : List Cell) (st : AI) :
    l.foldl AI.mark_safe st = markSafesBatch l.toFinset st := by
  induction l generalizing st with
  | nil => simp [markSafesBatch]
  | cons c t ih =>
    rw [List.foldl_cons, ih]
    have hmap : ∀ s : Sentence,
        (⟨(s.mark_safe c).cells \ t.toFinset, (s.mark_safe c).count⟩ : Sentence)
          = ⟨s.cells \ insert c t.toFinset, s.count⟩ := by
      intro s
      rw [Sentence.mark_safe_eq, Finset.erase_eq]
      simp only [Sentence.mk.injEq, and_true]
      exact sdiff_singleton_sdiff _ _ _
    simp only [markSafesBatch, AI.mark_safe, List.toFinset_cons, AI.mk.injEq,
      true_and, and_true, eq_self_iff_true]
    refine ⟨?_, ?_⟩
    · rw [Finset.insert_union, Finset.union_insert]
    · exact map_comp_eq_map _ _ _ hmap st.knowledge

/-- Marking the cells of a duplicate-free list as mines one at a time, in any
order, is the batch update on the corresponding set. -/
theorem foldl_mark_mine_eq_batch (l : List Cell) (hl : l.Nodup) (st : AI) :
    l.foldl AI.mark_mine st = markMinesBatch l.toFinset st := by
  induction l generalizing st with
  | nil => simp [markMinesBatch]
  | cons c t ih =>
    obtain ⟨hct, ht⟩ := List.nodup_cons.mp hl
    rw [List.foldl_cons, ih ht]
    have hmap : ∀ s : Sentence,
        (⟨(s.mark_mine c).cells \ t.toFinset,
          (s.mark_mine c).count - (((s.mark_mine c).cells ∩ t.toFinset).card : Int)⟩ : Sentence)
        = ⟨s.cells \ insert c t.toFinset,
           s.count - ((s.cells ∩ insert c t.toFinset).card : Int)⟩ := by
      intro s
      rw [Sentence.mark_mine_eq]
      simp only [Sentence.mk.injEq]
      have h1 : (s.cells \ ({c} : Finset Cell)) ∩ t.toFinset = s.cells ∩ t.toFinset := by
        ext x
        simp only [Finset.mem_inter, Finset.mem_sdiff, Finset.mem_singleton]
        constructor
        · rintro ⟨⟨hx, _⟩, hxt⟩; exact ⟨hx, hxt⟩
        · rintro ⟨hx, hxt⟩
          have hxc : x ≠ c := by
            intro he
            rw [he] at hxt
            exact hct (List.mem_toFinset.mp hxt)
          exact ⟨⟨hx, hxc⟩, hxt⟩
      have h2 : s.cells ∩ insert c t.toFinset = (s.cells ∩ {c}) ∪ (s.cells ∩ t.toFinset) := by
        rw [Finset.insert_eq, Finset.inter_union_distrib_left]
      have hdisj : Disjoint (s.cells ∩ ({c} : Finset Cell)) (s.cells ∩ t.toFinset) := by
        rw [Finset.disjoint_left]
        intro x hx1 hx2
        rw [Finset.mem_inter, Finset.mem_singleton] at hx1
        rw [Finset.mem_inter, List.mem_toFinset] at hx2
        exact hct (hx1.2 ▸ hx2.2)
      have hcard : (s.cells ∩ insert c t.toFinset).card
          = (s.cells ∩ ({c} : Finset Cell)).card + (s.cells ∩ t.toFinset).card := by
        rw [h2, Finset.card_union_of_disjoint hdisj]
      constructor
      · exact sdiff_singleton_sdiff _ _ _
      · rw [h1, hcard]
        push_cast
        ring
    simp only [markMinesBatch, AI.mark_mine, List.toFinset_cons, AI.mk.injEq,
      true_and, and_true, eq_self_iff_true]
    refine ⟨?_, ?_⟩
    · rw [Finset.insert_union, Finset.union_insert]
    · exact map_comp_eq_map _ _ _ hmap st.knowledge

/-! Frame lemmas: the grid dimensions never change, moves_made changes only
in add_knowledge, and the safes and mines sets only grow. -/

/-- The staged description of add_knowledge agrees with its definition. -/
theorem add_knowledge_eq (st : AI) (cell : Cell) (count : Int) :
    st.add_knowledge cell count
      = (obsState3 st cell count).update_knowledge.infer_new_sentences := rfl

theorem carries_rfl (st : AI) : Carries st st :=
  ⟨rfl, rfl, rfl, Finset.Subset.refl _, Finset.Subset.refl _⟩

theorem carries_trans {a b c : AI} (h1 : Carries a b) (h2 : Carries b c) : Carries a c :=
  ⟨h2.1.trans h1.1, h2.2.1.trans h1.2.1, h2.2.2.1.trans h1.2.2.1,
   h1.2.2.2.1.trans h2.2.2.2.1, h1.2.2.2.2.trans h2.2.2.2.2⟩

theorem carries_mark_safe (st : AI) (c : Cell) : Carries st (st.mark_safe c) :=
  ⟨rfl, rfl, rfl, Finset.subset_insert _ _, Finset.Subset.refl _⟩

theorem carries_mark_mine (st : AI) (c : Cell) : Carries st (st.mark_mine c) :=
  ⟨rfl, rfl, rfl, Finset.Subset.refl _, Finset.subset_insert _ _⟩

theorem carries_markSafesBatch (S : Finset Cell) (st : AI) :
    Carries st (markSafesBatch S st) :=
  ⟨rfl, rfl, rfl, Finset.subset_union_left, Finset.Subset.refl _⟩

theorem carries_markMinesBatch (S : Finset Cell) (st : AI) :
    Carries st (markMinesBatch S st) :=
  ⟨rfl, rfl, rfl, Finset.Subset.refl _, Finset.subset_union_left⟩

theorem carries_set_knowledge (st : AI) (kb : List Sentence) :
    Carries st { st with knowledge := kb } :=
  ⟨rfl, rfl, rfl, Finset.Subset.refl _, Finset.Subset.refl _⟩

theorem carries_updatePass (st : AI) : Carries st (updatePass st) := by
  unfold updatePass
  exact carries_trans (carries_markSafesBatch _ _)
    (carries_trans (carries_markMinesBatch _ _) (carries_set_knowledge _ _))

theorem carries_updateFuel :
    ∀ (n : Nat) (st r : AI), updateKnowledgeFuel n st = some r → Carries st r := by
  intro n
  induction n with
  | zero => intro st r h; exact absurd h (by simp [updateKnowledgeFuel])
  | succ m ih =>
    intro st r h
    unfold updateKnowledgeFuel at h
    split at h
    · exact carries_trans (carries_updatePass st) (ih _ _ h)
    · rw [Option.some_inj] at h
      rw [← h]
      exact carries_updatePass st

theorem carries_update_knowledge (st : AI) : Carries st st.update_knowledge := by
  unfold AI.update_knowledge
  cases hE : updateKnowledgeFuel (totalCells st.knowledge + 1) st with
  | none => exact carries_rfl st
  | some r =>
    rw [Option.getD_some]
    exact carries_updateFuel _ _ _ hE

theorem carries_infer (st : AI) : Carries st st.infer_new_sentences :=
  ⟨rfl, rfl, rfl, Finset.Subset.refl _, Finset.Subset.refl _⟩

/-- Frame facts for one add_knowledge call: dimensions unchanged, the
observed cell recorded in moves_made, the observed cell joins safes, and
safes and mines grow. -/
theorem add_knowledge_frame (st : AI) (cell : Cell) (count : Int) :
    (st.add_knowledge cell count).height = st.height ∧
    (st.add_knowledge cell count).width = st.width ∧
    (st.add_knowledge cell count).moves_made = insert cell st.moves_made ∧
    insert cell st.safes ⊆ (st.add_knowledge cell count).safes ∧
    st.mines ⊆ (st.add_knowledge cell count).mines := by
  have h3 : Carries (obsState2 st cell) (obsState3 st cell count) := by
    unfold obsState3
    split
    · exact carries_set_knowledge _ _
    · exact carries_rfl _
  have h4 : Carries (obsState2 st cell) (st.add_knowledge cell count) := by
    rw [add_knowledge_eq]
    exact carries_trans h3 (carries_trans (carries_update_knowledge _) (carries_infer _))
  obtain ⟨hh, hw, hm, hs, hmi⟩ := h4
  refine ⟨hh, hw, hm, ?_, hmi⟩
  exact hs

/-! Membership in the safes and mines scans of update_knowledge. -/

theorem mem_foldl_union (f : Sentence → Finset Cell) (kb : List Sentence)
    (acc : Finset Cell) (c : Cell) :
    c ∈ kb.foldl (fun a s => a ∪ f s) acc ↔ c ∈ acc ∨ ∃ s ∈ kb, c ∈ f s := by
  induction kb generalizing acc with
  | nil => simp
  | cons s t ih =>
    rw [List.foldl_cons, ih]
    simp only [Finset.mem_union, List.mem_cons]
    constructor
    · rintro ((hc | hc) | ⟨s1, hs1, hc⟩)
      · exact Or.inl hc
      · exact Or.inr ⟨s, Or.inl rfl, hc⟩
      · exact Or.inr ⟨s1, Or.inr hs1, hc⟩
    · rintro (hc | ⟨s1, (rfl | hs1), hc⟩)
      · exact Or.inl (Or.inl hc)
      · exact Or.inl (Or.inr hc)
      · exact Or.inr ⟨s1, hs1, hc⟩

theorem mem_safesFound {kb : List Sentence} {c : Cell} :
    c ∈ safesFound kb ↔ ∃ s ∈ kb, s.count = 0 ∧ c ∈ s.cells := by
  unfold safesFound
  rw [mem_foldl_union]
  simp only [Finset.not_mem_empty, false_or]
  constructor
  · rintro ⟨s, hs, hc⟩
    unfold Sentence.known_safes at hc
    split at hc
    · rename_i h0
      exact ⟨s, hs, h0, hc⟩
    · exact absurd hc (Finset.not_mem_empty c)
  · rintro ⟨s, hs, h0, hc⟩
    refine ⟨s, hs, ?_⟩
    unfold Sentence.known_safes
    rw [if_pos h0]
    exact hc

theorem mem_minesFound {kb : List Sentence} {c : Cell} :
    c ∈ minesFound kb ↔
      ∃ s ∈ kb, (s.count = (s.cells.card : Int) ∧ s.count ≠ 0) ∧ c ∈ s.cells := by
  unfold minesFound
  rw [mem_foldl_union]
  simp only [Finset.not_mem_empty, false_or]
  constructor
  · rintro ⟨s, hs, hc⟩
    unfold Sentence.known_mines at hc
    split at hc
    · rename_i h0
      exact ⟨s, hs, h0, hc⟩
    · exact absurd hc (Finset.not_mem_empty c)
  · rintro ⟨s, hs, h0, hc⟩
    refine ⟨s, hs, ?_⟩
    unfold Sentence.known_mines
    rw [if_pos h0]
    exact hc

/-! Termination of the update_knowledge loop (claim C3): every iteration
that repeats strictly shrinks the total number of cell occurrences. -/

theorem totalCells_markSafesBatch_le (S : Finset Cell) (st : AI) :
    totalCells (markSafesBatch S st).knowledge ≤ totalCells st.knowledge := by
  unfold totalCells markSafesBatch
  simp only [List.map_map]
  apply List.sum_le_sum
  intro s hs
  simp only [Function.comp_apply]
  exact Finset.card_le_card Finset.sdiff_subset

theorem totalCells_markMinesBatch_le (S : Finset Cell) (st : AI) :
    totalCells (markMinesBatch S st).knowledge ≤ totalCells st.knowledge := by
  unfold totalCells markMinesBatch
  simp only [List.map_map]
  apply List.sum_le_sum
  intro s hs
  simp only [Function.comp_apply]
  exact Finset.card_le_card Finset.sdiff_subset

theorem totalCells_markSafesBatch_lt (S : Finset Cell) (st : AI)
    (hx : ∃ s ∈ st.knowledge, ∃ c ∈ s.cells, c ∈ S) :
    totalCells (markSafesBatch S st).knowledge < totalCells st.knowledge := by
  obtain ⟨s0, hs0, c0, hc0, hcS⟩ := hx
  unfold totalCells markSafesBatch
  simp only [List.map_map]
  apply List.sum_lt_sum
  · intro s hs
    simp only [Function.comp_apply]
    exact Finset.card_le_card Finset.sdiff_subset
  · refine ⟨s0, hs0, ?_⟩
    simp only [Function.comp_apply]
    apply Finset.card_lt_card
    rw [Finset.ssubset_iff_of_subset Finset.sdiff_subset]
    exact ⟨c0, hc0, by simp [Finset.mem_sdiff, hcS]⟩

theorem totalCells_markMinesBatch_lt (S : Finset Cell) (st : AI)
    (hx : ∃ s ∈ st.knowledge, ∃ c ∈ s.cells, c ∈ S) :
    totalCells (markMinesBatch S st).knowledge < totalCells st.knowledge := by
  obtain ⟨s0, hs0, c0, hc0, hcS⟩ := hx
  unfold totalCells markMinesBatch
  simp only [List.map_map]
  apply List.sum_lt_sum
  · intro s hs
    simp only [Function.comp_apply]
    exact Finset.card_le_card Finset.sdiff_subset
  · refine ⟨s0, hs0, ?_⟩
    simp only [Function.comp_apply]
    apply Finset.card_lt_card
    rw [Finset.ssubset_iff_of_subset Finset.sdiff_subset]
    exact ⟨c0, hc0, by simp [Finset.mem_sdiff, hcS]⟩

theorem totalCells_filterNonempty (kb : List Sentence) :
    totalCells (filterNonempty kb) = totalCells kb := by
  unfold totalCells filterNonempty
  induction kb with
  | nil => rfl
  | cons s t ih =>
    rw [List.filter_cons]
    by_cases h : s.cells = ∅
    · simp [h]
      simpa using ih
    · simp [h]
      simpa using ih

theorem markSafesBatch_empty (st : AI) : markSafesBatch ∅ st = st := by
  have h := foldl_mark_safe_eq_batch [] st
  simpa using h.symm

theorem totalCells_updatePass_lt (st : AI)
    (h : (safesFound st.knowledge).Nonempty ∨ (minesFound st.knowledge).Nonempty) :
    totalCells (updatePass st).knowledge < totalCells st.knowledge := by
  unfold updatePass
  simp only []
  rw [totalCells_filterNonempty]
  by_cases hS : (safesFound st.knowledge).Nonempty
  · obtain ⟨c, hc⟩ := hS
    obtain ⟨s0, hs0, h0, hc0⟩ := mem_safesFound.mp hc
    calc totalCells (markMinesBatch (minesFound st.knowledge)
            (markSafesBatch (safesFound st.knowledge) st)).knowledge
        ≤ totalCells (markSafesBatch (safesFound st.knowledge) st).knowledge :=
          totalCells_markMinesBatch_le _ _
      _ < totalCells st.knowledge :=
          totalCells_markSafesBatch_lt _ _ ⟨s0, hs0, c, hc0, hc⟩
  · have hM : (minesFound st.knowledge).Nonempty := h.resolve_left hS
    have hSe : safesFound st.knowledge = ∅ := Finset.not_nonempty_iff_eq_empty.mp hS
    rw [hSe, markSafesBatch_empty]
    obtain ⟨c, hc⟩ := hM
    obtain ⟨s0, hs0, h0, hc0⟩ := mem_minesFound.mp hc
    exact totalCells_markMinesBatch_lt _ _ ⟨s0, hs0, c, hc0, hc⟩

theorem updateFuel_isSome (n : Nat) :
    ∀ st : AI, totalCells st.knowledge < n → (updateKnowledgeFuel n st).isSome := by
  induction n with
  | zero => intro st h; omega
  | succ m ih =>
    intro st h
    unfold updateKnowledgeFuel
    split
    · rename_i hp
      apply ih
      have hlt := totalCells_updatePass_lt st hp
      omega
    · simp

/-! Lemmas on the pairwise-inference pass (claims C1, C6, and the
preservation arguments of C4 and C10). -/

theorem inferInner_cons (a : Sentence) (t : List Sentence) (s1 : Sentence)
    (acc : List Sentence) :
    inferInner (a :: t) s1 acc
      = inferInner t s1
          (if s1 = a then acc
           else if s1.cells ⊆ a.cells then
             if (⟨a.cells \ s1.cells, a.count - s1.count⟩ : Sentence) ∈ acc then acc
             else acc ++ [⟨a.cells \ s1.cells, a.count - s1.count⟩]
           else acc) := rfl

theorem inferInner_mono (kb : List Sentence) (s1 : Sentence) :
    ∀ (acc : List Sentence) (x : Sentence), x ∈ acc → x ∈ inferInner kb s1 acc := by
  induction kb with
  | nil => intro acc x hx; exact hx
  | cons a t ih =>
    intro acc x hx
    rw [inferInner_cons]
    apply ih
    split
    · exact hx
    · split
      · split
        · exact hx
        · exact List.mem_append_left _ hx
      · exact hx

theorem inferInner_sound (kb : List Sentence) (s1 : Sentence) :
    ∀ (acc : List Sentence) (x : Sentence), x ∈ inferInner kb s1 acc →
      x ∈ acc ∨ ∃ s2 ∈ kb, s1 ≠ s2 ∧ s1.cells ⊆ s2.cells ∧
        x = ⟨s2.cells \ s1.cells, s2.count - s1.count⟩ := by
  induction kb with
  | nil => intro acc x hx; exact Or.inl hx
  | cons a t ih =>
    intro acc x hx
    rw [inferInner_cons] at hx
    rcases ih _ x hx with hacc | ⟨s2, hs2, hne, hsub, hval⟩
    · split at hacc
      · exact Or.inl hacc
      · split at hacc
        · split at hacc
          · exact Or.inl hacc
          · rcases List.mem_append.mp hacc with h | h
            · exact Or.inl h
            · rename_i hne hsub _
              refine Or.inr ⟨a, List.mem_cons_self a t, hne, hsub, ?_⟩
              simpa using h
        · exact Or.inl hacc
    · exact Or.inr ⟨s2, List.mem_cons_of_mem a hs2, hne, hsub, hval⟩

theorem inferInner_nodup (kb : List Sentence) (s1 : Sentence) :
    ∀ acc : List Sentence, acc.Nodup → (inferInner kb s1 acc).Nodup := by
  induction kb with
  | nil => intro acc h; exact h
  | cons a t ih =>
    intro acc h
    rw [inferInner_cons]
    apply ih
    split
    · exact h
    · split
      · split
        · exact h
        · rename_i hns
          simp only [List.nodup_append, List.nodup_cons, List.not_mem_nil, not_false_eq_true,
            List.nodup_nil, and_true, true_and]
          refine ⟨h, ?_⟩
          intro x hx hx1
          rw [List.mem_singleton] at hx1
          rw [hx1] at hx
          exact hns hx
      · exact h

theorem inferInner_complete (kb : List Sentence) (s1 s2 : Sentence)
    (hs2 : s2 ∈ kb) (hne : s1 ≠ s2) (hsub : s1.cells ⊆ s2.cells) :
    ∀ acc : List Sentence,
      (⟨s2.cells \ s1.cells, s2.count - s1.count⟩ : Sentence) ∈ inferInner kb s1 acc := by
  induction kb with
  | nil => exact absurd hs2 (List.not_mem_nil s2)
  | cons a t ih =>
    intro acc
    rw [inferInner_cons]
    rcases List.mem_cons.mp hs2 with rfl | hs2t
    · apply inferInner_mono
      rw [if_neg hne, if_pos hsub]
      split
      · assumption
      · exact List.mem_append_right _ (List.mem_singleton.mpr rfl)
    · exact ih hs2t _

theorem inferOuter_mono (kb : List Sentence) :
    ∀ (l : List Sentence) (acc : List Sentence) (x : Sentence), x ∈ acc →
      x ∈ l.foldl (fun acc s1 => inferInner kb s1 acc) acc := by
  intro l
  induction l with
  | nil => intro acc x hx; exact hx
  | cons a t ih =>
    intro acc x hx
    rw [List.foldl_cons]
    exact ih _ x (inferInner_mono kb a acc x hx)

theorem inferOuter_sound (kb : List Sentence) :
    ∀ (l : List Sentence) (acc : List Sentence) (x : Sentence),
      x ∈ l.foldl (fun acc s1 => inferInner kb s1 acc) acc →
      x ∈ acc ∨ ∃ s1 ∈ l, ∃ s2 ∈ kb, s1 ≠ s2 ∧ s1.cells ⊆ s2.cells ∧
        x = ⟨s2.cells \ s1.cells, s2.count - s1.count⟩ := by
  intro l
  induction l with
  | nil => intro acc x hx; exact Or.inl hx
  | cons a t ih =>
    intro acc x hx
    rw [List.foldl_cons] at hx
    rcases ih _ x hx with hacc | ⟨s1, hs1, s2, hs2, hne, hsub, hval⟩
    · rcases inferInner_sound kb a acc x hacc with h | ⟨s2, hs2, hne, hsub, hval⟩
      · exact Or.inl h
      · exact Or.inr ⟨a, List.mem_cons_self a t, s2, hs2, hne, hsub, hval⟩
    · exact Or.inr ⟨s1, List.mem_cons_of_mem a hs1, s2, hs2, hne, hsub, hval⟩

/-- Every sentence of the inference batch is the subset-difference of an
ordered pair of value-distinct sentences of the knowledge base. -/
theorem inferBatch_sound {kb : List Sentence} {x : Sentence} (hx : x ∈ inferBatch kb) :
    ∃ s1 ∈ kb, ∃ s2 ∈ kb, s1 ≠ s2 ∧ s1.cells ⊆ s2.cells ∧
      x = ⟨s2.cells \ s1.cells, s2.count - s1.count⟩ := by
  rcases inferOuter_sound kb kb [] x hx with h | h
  · exact absurd h (List.not_mem_nil x)
  · exact h

/-- The inference batch never contains two value-equal sentences. -/
theorem inferBatch_nodup (kb : List Sentence) : (inferBatch kb).Nodup := by
  unfold inferBatch
  have h : ∀ (l : List Sentence) (acc : List Sentence), acc.Nodup →
      (l.foldl (fun acc s1 => inferInner kb s1 acc) acc).Nodup := by
    intro l
    induction l with
    | nil => intro acc h; exact h
    | cons a t ih =>
      intro acc hacc
      rw [List.foldl_cons]
      exact ih _ (inferInner_nodup kb a acc hacc)
  exact h kb [] List.nodup_nil

/-- Every subset-difference of an ordered pair of value-distinct sentences
of the knowledge base occurs in the inference batch. -/
theorem inferBatch_complete {kb : List Sentence} {s1 s2 : Sentence}
    (hs1 : s1 ∈ kb) (hs2 : s2 ∈ kb) (hne : s1 ≠ s2) (hsub : s1.cells ⊆ s2.cells) :
    (⟨s2.cells \ s1.cells, s2.count - s1.count⟩ : Sentence) ∈ inferBatch kb := by
  unfold inferBatch
  have h : ∀ (l : List Sentence) (acc : List Sentence), s1 ∈ l →
      (⟨s2.cells \ s1.cells, s2.count - s1.count⟩ : Sentence)
        ∈ l.foldl (fun acc s1 => inferInner kb s1 acc) acc := by
    intro l
    induction l with
    | nil => intro acc h; exact absurd h (List.not_mem_nil s1)
    | cons a t ih =>
      intro acc hmem
      rw [List.foldl_cons]
      rcases List.mem_cons.mp hmem with rfl | hs1t
      · exact inferOuter_mono kb t _ _ (inferInner_complete kb s1 s2 hs2 hne hsub acc)
      · exact ih _ hs1t
  exact h kb [] hs1

/-! Preservation of the soundness invariant Faithful (claim C4). -/

theorem faithful_mark_safe {M : Finset Cell} {st : AI} (hF : Faithful M st)
    {c : Cell} (hc : c ∉ M) : Faithful M (st.mark_safe c) := by
  obtain ⟨hS, hM, hK⟩ := hF
  refine ⟨?_, hM, ?_⟩
  · intro x hx
    rcases Finset.mem_insert.mp hx with rfl | hx
    · exact hc
    · exact hS x hx
  · intro s hs
    rcases List.mem_map.mp hs with ⟨s0, hs0, rfl⟩
    rw [Sentence.mark_safe_eq]
    show (((s0.cells.erase c) ∩ M).card : Int) = s0.count
    have he : s0.cells.erase c ∩ M = s0.cells ∩ M := by
      ext x
      simp only [Finset.mem_inter, Finset.mem_erase]
      constructor
      · rintro ⟨⟨_, hx⟩, hxM⟩; exact ⟨hx, hxM⟩
      · rintro ⟨hx, hxM⟩
        exact ⟨⟨fun he => hc (he ▸ hxM), hx⟩, hxM⟩
    rw [he]
    exact hK s0 hs0

theorem faithful_markSafesBatch {M S : Finset Cell} {st : AI} (hF : Faithful M st)
    (hS : ∀ c ∈ S, c ∉ M) : Faithful M (markSafesBatch S st) := by
  obtain ⟨hFs, hFm, hFk⟩ := hF
  refine ⟨?_, hFm, ?_⟩
  · intro x hx
    rcases Finset.mem_union.mp hx with hx | hx
    · exact hFs x hx
    · exact hS x hx
  · intro s hs
    rcases List.mem_map.mp hs with ⟨s0, hs0, rfl⟩
    show (((s0.cells \ S) ∩ M).card : Int) = s0.count
    have he : (s0.cells \ S) ∩ M = s0.cells ∩ M := by
      ext x
      simp only [Finset.mem_inter, Finset.mem_sdiff]
      constructor
      · rintro ⟨⟨hx, _⟩, hxM⟩; exact ⟨hx, hxM⟩
      · rintro ⟨hx, hxM⟩; exact ⟨⟨hx, fun hxS => hS x hxS hxM⟩, hxM⟩
    rw [he]
    exact hFk s0 hs0

theorem faithful_markMinesBatch {M S : Finset Cell} {st : AI} (hF : Faithful M st)
    (hS : S ⊆ M) : Faithful M (markMinesBatch S st) := by
  obtain ⟨hFs, hFm, hFk⟩ := hF
  refine ⟨hFs, Finset.union_subset hFm hS, ?_⟩
  intro s hs
  rcases List.mem_map.mp hs with ⟨s0, hs0, rfl⟩
  show (((s0.cells \ S) ∩ M).card : Int) = s0.count - ((s0.cells ∩ S).card : Int)
  have he : (s0.cells \ S) ∩ M = (s0.cells ∩ M) \ (s0.cells ∩ S) := by
    ext x
    simp only [Finset.mem_inter, Finset.mem_sdiff]
    constructor
    · rintro ⟨⟨hx, hxS⟩, hxM⟩
      exact ⟨⟨hx, hxM⟩, fun hc => hxS hc.2⟩
    · rintro ⟨⟨hx, hxM⟩, hns⟩
      exact ⟨⟨hx, fun hxS => hns ⟨hx, hxS⟩⟩, hxM⟩
  have hsub : s0.cells ∩ S ⊆ s0.cells ∩ M := by
    intro x hx
    rw [Finset.mem_inter] at hx ⊢
    exact ⟨hx.1, hS hx.2⟩
  rw [he, Finset.card_sdiff hsub, Nat.cast_sub (Finset.card_le_card hsub), hFk s0 hs0]

theorem safesFound_not_mine {M : Finset Cell} {st : AI} (hF : Faithful M st) :
    ∀ c ∈ safesFound st.knowledge, c ∉ M := by
  intro c hc hcM
  obtain ⟨s, hs, h0, hcs⟩ := mem_safesFound.mp hc
  have hK := hF.2.2 s hs
  rw [h0] at hK
  have hcard : (s.cells ∩ M).card = 0 := by exact_mod_cast hK
  rw [Finset.card_eq_zero] at hcard
  have hmem : c ∈ s.cells ∩ M := Finset.mem_inter.mpr ⟨hcs, hcM⟩
  rw [hcard] at hmem
  exact Finset.not_mem_empty c hmem

theorem minesFound_subset_mines {M : Finset Cell} {st : AI} (hF : Faithful M st) :
    minesFound st.knowledge ⊆ M := by
  intro c hc
  obtain ⟨s, hs, hcnt, hcs⟩ := mem_minesFound.mp hc
  have hK := hF.2.2 s hs
  rw [hcnt.1] at hK
  have hcard : s.cells.card ≤ (s.cells ∩ M).card := by
    have : (s.cells ∩ M).card = s.cells.card := by exact_mod_cast hK
    omega
  have heq : s.cells ∩ M = s.cells :=
    Finset.eq_of_subset_of_card_le Finset.inter_subset_left hcard
  have : c ∈ s.cells ∩ M := heq.symm ▸ hcs
  exact (Finset.mem_inter.mp this).2

theorem faithful_updatePass {M : Finset Cell} {st : AI} (hF : Faithful M st) :
    Faithful M (updatePass st) := by
  have h1 : Faithful M (markSafesBatch (safesFound st.knowledge) st) :=
    faithful_markSafesBatch hF (safesFound_not_mine hF)
  have h2 : Faithful M (markMinesBatch (minesFound st.knowledge)
      (markSafesBatch (safesFound st.knowledge) st)) :=
    faithful_markMinesBatch h1 (minesFound_subset_mines hF)
  obtain ⟨a, b, c⟩ := h2
  exact ⟨a, b, fun s hs => c s (List.mem_filter.mp hs).1⟩

theorem faithful_updateFuel {M : Finset Cell} :
    ∀ (n : Nat) (st r : AI), Faithful M st → updateKnowledgeFuel n st = some r →
      Faithful M r := by
  intro n
  induction n with
  | zero => intro st r _ h; exact absurd h (by simp [updateKnowledgeFuel])
  | succ m ih =>
    intro st r hF h
    unfold updateKnowledgeFuel at h
    split at h
    · exact ih _ _ (faithful_updatePass hF) h
    · rw [Option.some_inj] at h
      rw [← h]
      exact faithful_updatePass hF

theorem faithful_update_knowledge {M : Finset Cell} {st : AI} (hF : Faithful M st) :
    Faithful M st.update_knowledge := by
  unfold AI.update_knowledge
  cases hE : updateKnowledgeFuel (totalCells st.knowledge + 1) st with
  | none => exact hF
  | some r =>
    rw [Option.getD_some]
    exact faithful_updateFuel _ _ _ hF hE

theorem faithful_infer {M : Finset Cell} {st : AI} (hF : Faithful M st) :
    Faithful M st.infer_new_sentences := by
  obtain ⟨a, b, c⟩ := hF
  refine ⟨a, b, ?_⟩
  intro s hs
  rcases List.mem_append.mp hs with h | h
  · exact c s h
  · obtain ⟨s1, hs1, s2, hs2, hne, hsub, rfl⟩ := inferBatch_sound h
    show (((s2.cells \ s1.cells) ∩ M).card : Int) = s2.count - s1.count
    have hsubM : s1.cells ∩ M ⊆ s2.cells ∩ M := by
      intro x hx
      rw [Finset.mem_inter] at hx ⊢
      exact ⟨hsub hx.1, hx.2⟩
    have he : (s2.cells \ s1.cells) ∩ M = (s2.cells ∩ M) \ (s1.cells ∩ M) := by
      ext x
      simp only [Finset.mem_inter, Finset.mem_sdiff]
      constructor
      · rintro ⟨⟨hx2, hx1⟩, hxM⟩
        exact ⟨⟨hx2, hxM⟩, fun hc => hx1 hc.1⟩
      · rintro ⟨⟨hx2, hxM⟩, hns⟩
        exact ⟨⟨hx2, fun hx1 => hns ⟨hx1, hxM⟩⟩, hxM⟩
    rw [he, Finset.card_sdiff hsubM, Nat.cast_sub (Finset.card_le_card hsubM),
      c s1 hs1, c s2 hs2]

/-! The neighbor computation of add_knowledge in closed form. -/

theorem neighborList_eq_map (c : Cell) :
    neighborList c
      = ([((-1 : Int), (-1 : Int)), (-1, 0), (-1, 1), (0, -1), (0, 1),
          (1, -1), (1, 0), (1, 1)] : List (Int × Int)).map
          (fun d => (c.1 + d.1, c.2 + d.2)) := rfl

theorem neighborList_nodup (c : Cell) : (neighborList c).Nodup := by
  rw [neighborList_eq_map]
  apply List.Nodup.map
  · intro a b hab
    simp only [Prod.mk.injEq] at hab
    obtain ⟨h1, h2⟩ := hab
    cases a
    cases b
    simp only [Prod.mk.injEq]
    omega
  · decide

theorem obsInb_nodup (st : AI) (cell : Cell) : (obsInb st cell).Nodup :=
  (neighborList_nodup cell).filter _

theorem obsInb_toFinset (st : AI) (cell : Cell) :
    (obsInb st cell).toFinset = inBoundsNbrs st.height st.width cell := rfl

theorem mem_inBoundsNbrs {h w : Nat} {cell x : Cell} :
    x ∈ inBoundsNbrs h w cell ↔ x ∈ neighborList cell ∧ InBounds h w x := by
  unfold inBoundsNbrs
  rw [List.mem_toFinset, List.mem_filter]
  simp

/-- The length of the known-mine filter in add_knowledge counts the in-bounds
neighbors that are known mines. -/
theorem obsKmc_eq (st : AI) (cell : Cell) :
    obsKmc st cell = ((inBoundsNbrs st.height st.width cell ∩ st.mines).card : Int) := by
  unfold obsKmc
  congr 1
  have hnd : ((obsInb st cell).filter (fun n => decide (n ∈ (obsState2 st cell).mines))).Nodup :=
    (obsInb_nodup st cell).filter _
  rw [← List.toFinset_card_of_nodup hnd]
  congr 1
  ext x
  rw [List.mem_toFinset, List.mem_filter, Finset.mem_inter, ← obsInb_toFinset,
    List.mem_toFinset]
  simp only [decide_eq_true_eq]
  constructor
  · rintro ⟨hx, hm⟩; exact ⟨hx, hm⟩
  · rintro ⟨hx, hm⟩; exact ⟨hx, hm⟩

/-- The new_cells set built in add_knowledge: the in-bounds neighbors minus
known mines and minus the safes as they stand after step 2. -/
theorem obsNewCells_eq (st : AI) (cell : Cell) :
    obsNewCells st cell
      = (inBoundsNbrs st.height st.width cell \ st.mines) \ insert cell st.safes := by
  unfold obsNewCells
  ext x
  rw [List.mem_toFinset, List.mem_filter, Finset.mem_sdiff, Finset.mem_sdiff,
    ← obsInb_toFinset, List.mem_toFinset]
  simp only [Bool.and_eq_true, decide_eq_true_eq]
  constructor
  · rintro ⟨hx, hm, hs⟩
    exact ⟨⟨hx, hm⟩, hs⟩
  · rintro ⟨⟨hx, hm⟩, hs⟩
    exact ⟨hx, hm, hs⟩

/-- One contract-respecting add_knowledge call preserves the soundness
invariant. -/
theorem faithful_add_knowledge {M : Finset Cell} {st : AI} (hF : Faithful M st)
    {cell : Cell} {count : Int}
    (hc : ContractOK st.height st.width M (cell, count)) :
    Faithful M (st.add_knowledge cell count) := by
  obtain ⟨hin, hcM, hcount⟩ := hc
  rw [add_knowledge_eq]
  apply faithful_infer
  apply faithful_update_knowledge
  have h1 : Faithful M (obsState1 st cell) := ⟨hF.1, hF.2.1, hF.2.2⟩
  have h2 : Faithful M (obsState2 st cell) := faithful_mark_safe h1 hcM
  unfold obsState3
  split
  · obtain ⟨a, b, c⟩ := h2
    refine ⟨a, b, ?_⟩
    intro s hs
    rcases List.mem_append.mp hs with h | h
    · exact c s h
    · rw [List.mem_singleton] at h
      subst h
      show ((obsNewCells st cell ∩ M).card : Int) = count - obsKmc st cell
      rw [obsNewCells_eq, obsKmc_eq]
      have hN : ((inBoundsNbrs st.height st.width cell \ st.mines) \ insert cell st.safes) ∩ M
          = (inBoundsNbrs st.height st.width cell ∩ M)
              \ (inBoundsNbrs st.height st.width cell ∩ st.mines) := by
        ext x
        simp only [Finset.mem_inter, Finset.mem_sdiff, Finset.mem_insert, not_or]
        constructor
        · rintro ⟨⟨⟨hx, hm⟩, _, _⟩, hxM⟩
          exact ⟨⟨hx, hxM⟩, fun hc2 => hm hc2.2⟩
        · rintro ⟨⟨hx, hxM⟩, hns⟩
          refine ⟨⟨⟨hx, fun hm => hns ⟨hx, hm⟩⟩, fun he => hcM (he ▸ hxM), ?_⟩, hxM⟩
          intro hsafe
          exact hF.1 x hsafe hxM
      have hsub : inBoundsNbrs st.height st.width cell ∩ st.mines
          ⊆ inBoundsNbrs st.height st.width cell ∩ M := by
        intro x hx
        rw [Finset.mem_inter] at hx ⊢
        exact ⟨hx.1, hF.2.1 hx.2⟩
      rw [hN, Finset.card_sdiff hsub, Nat.cast_sub (Finset.card_le_card hsub)]
      simp only [obsState2, obsState1, AI.mark_safe] at hcount ⊢
      rw [hcount]
  · exact h2

/-! Preservation of the bounds invariant KBBounded (claim C10). -/

theorem kbbounded_of_subset {st st' : AI} (hB : KBBounded st)
    (hh : st'.height = st.height) (hw : st'.width = st.width)
    (hk : ∀ s' ∈ st'.knowledge, ∃ s ∈ st.knowledge, s'.cells ⊆ s.cells) :
    KBBounded st' := by
  intro s' hs' c hc
  obtain ⟨s, hs, hsub⟩ := hk s' hs'
  rw [hh, hw]
  exact hB s hs c (hsub hc)

theorem kbbounded_mark_safe {st : AI} (hB : KBBounded st) (cell : Cell) :
    KBBounded (st.mark_safe cell) := by
  refine kbbounded_of_subset hB rfl rfl ?_
  intro s' hs'
  rcases List.mem_map.mp hs' with ⟨s0, hs0, rfl⟩
  rw [Sentence.mark_safe_eq]
  exact ⟨s0, hs0, Finset.erase_subset _ _⟩

theorem kbbounded_mark_mine {st : AI} (hB : KBBounded st) (cell : Cell) :
    KBBounded (st.mark_mine cell) := by
  refine kbbounded_of_subset hB rfl rfl ?_
  intro s' hs'
  rcases List.mem_map.mp hs' with ⟨s0, hs0, rfl⟩
  rw [Sentence.mark_mine_eq]
  exact ⟨s0, hs0, Finset.sdiff_subset⟩

theorem kbbounded_updatePass {st : AI} (hB : KBBounded st) :
    KBBounded (updatePass st) := by
  refine kbbounded_of_subset hB rfl rfl ?_
  intro s' hs'
  have hs2 := (List.mem_filter.mp hs').1
  rcases List.mem_map.mp hs2 with ⟨s1, hs1, rfl⟩
  rcases List.mem_map.mp hs1 with ⟨s0, hs0, rfl⟩
  exact ⟨s0, hs0, (Finset.sdiff_subset).trans Finset.sdiff_subset⟩

theorem kbbounded_updateFuel :
    ∀ (n : Nat) (st r : AI), KBBounded st → updateKnowledgeFuel n st = some r →
      KBBounded r := by
  intro n
  induction n with
  | zero => intro st r _ h; exact absurd h (by simp [updateKnowledgeFuel])
  | succ m ih =>
    intro st r hB h
    unfold updateKnowledgeFuel at h
    split at h
    · exact ih _ _ (kbbounded_updatePass hB) h
    · rw [Option.some_inj] at h
      rw [← h]
      exact kbbounded_updatePass hB

theorem kbbounded_update_knowledge {st : AI} (hB : KBBounded st) :
    KBBounded st.update_knowledge := by
  unfold AI.update_knowledge
  cases hE : updateKnowledgeFuel (totalCells st.knowledge + 1) st with
  | none => exact hB
  | some r =>
    rw [Option.getD_some]
    exact kbbounded_updateFuel _ _ _ hB hE

theorem kbbounded_infer {st : AI} (hB : KBBounded st) :
    KBBounded st.infer_new_sentences := by
  refine kbbounded_of_subset hB rfl rfl ?_
  intro s' hs'
  rcases List.mem_append.mp hs' with h | h
  · exact ⟨s', h, Finset.Subset.refl _⟩
  · obtain ⟨s1, _, s2, hs2, _, _, rfl⟩ := inferBatch_sound h
    exact ⟨s2, hs2, Finset.sdiff_subset⟩

theorem kbbounded_obsState3 {st : AI} (hB : KBBounded st) (cell : Cell) (count : Int) :
    KBBounded (obsState3 st cell count) := by
  have h2 : KBBounded (obsState2 st cell) := by
    have h1 : KBBounded (obsState1 st cell) := hB
    exact kbbounded_mark_safe h1 cell
  unfold obsState3
  split
  · intro s hs c hc
    rcases List.mem_append.mp hs with h | h
    · exact h2 s h c hc
    · rw [List.mem_singleton] at h
      subst h
      have hc2 : c ∈ obsNewCells st cell := hc
      rw [obsNewCells_eq] at hc2
      have : c ∈ inBoundsNbrs st.height st.width cell :=
        (Finset.mem_sdiff.mp (Finset.mem_sdiff.mp hc2).1).1
      exact (mem_inBoundsNbrs.mp this).2
  · exact h2

/-- One add_knowledge call, with any observed cell including out-of-bounds
ones, keeps every sentence cell inside the grid. -/
theorem kbbounded_add_knowledge {st : AI} (hB : KBBounded st)
    (cell : Cell) (count : Int) : KBBounded (st.add_knowledge cell count) := by
  rw [add_knowledge_eq]
  exact kbbounded_infer (kbbounded_update_knowledge (kbbounded_obsState3 hB cell count))

/-! The candidate set of make_random_move (claim C7). -/

theorem mem_choicesList {st : AI} {x : Cell} :
    x ∈ choicesList st ↔
      (∃ i < st.height, ∃ j < st.width, x = ((i : Int), (j : Int)))
        ∧ x ∉ st.moves_made ∧ x ∉ st.mines := by
  unfold choicesList
  rw [List.mem_flatMap]
  constructor
  · rintro ⟨i, hi, hx⟩
    rw [List.mem_range] at hi
    rw [List.mem_filterMap] at hx
    obtain ⟨j, hj, hx⟩ := hx
    rw [List.mem_range] at hj
    split at hx
    · rename_i hcond
      rw [Option.some_inj] at hx
      subst hx
      exact ⟨⟨i, hi, j, hj, rfl⟩, hcond⟩
    · exact absurd hx (by simp)
  · rintro ⟨⟨i, hi, j, hj, rfl⟩, hmm, hmi⟩
    refine ⟨i, List.mem_range.mpr hi, ?_⟩
    rw [List.mem_filterMap]
    refine ⟨j, List.mem_range.mpr hj, ?_⟩
    rw [if_pos ⟨hmm, hmi⟩]

theorem mem_gridCells {st : AI} {x : Cell} :
    x ∈ gridCells st ↔ ∃ i < st.height, ∃ j < st.width, x = ((i : Int), (j : Int)) := by
  unfold gridCells
  rw [Finset.mem_image]
  constructor
  · rintro ⟨⟨i, j⟩, hij, rfl⟩
    rw [Finset.mem_product] at hij
    obtain ⟨hi, hj⟩ := hij
    rw [Finset.mem_range] at hi hj
    exact ⟨i, hi, j, hj, rfl⟩
  · rintro ⟨i, hi, j, hj, rfl⟩
    refine ⟨(i, j), ?_, rfl⟩
    rw [Finset.mem_product]
    exact ⟨Finset.mem_range.mpr hi, Finset.mem_range.mpr hj⟩

/-- The choices list of make_random_move holds exactly the grid cells
outside moves_made and mines. -/
theorem choicesList_toFinset (st : AI) :
    (choicesList st).toFinset = gridCells st \ (st.moves_made ∪ st.mines) := by
  ext x
  rw [List.mem_toFinset, mem_choicesList, Finset.mem_sdiff, Finset.mem_union,
    mem_gridCells]
  constructor
  · rintro ⟨hg, hmm, hmi⟩
    exact ⟨hg, fun h => h.elim hmm hmi⟩
  · rintro ⟨hg, hn⟩
    exact ⟨hg, fun h => hn (Or.inl h), fun h => hn (Or.inr h)⟩

/-! Idempotence of the engine-level marking operations (claim C8). -/

theorem Sentence.mark_mine_idem (s : Sentence) (c : Cell) :
    (s.mark_mine c).mark_mine c = s.mark_mine c := by
  by_cases h : c ∈ s.cells
  · have h1 : s.mark_mine c = ⟨s.cells.erase c, s.count - 1⟩ := by
      unfold Sentence.mark_mine
      rw [if_pos h]
    rw [h1]
    unfold Sentence.mark_mine
    rw [if_neg (Finset.not_mem_erase c s.cells)]
  · have h1 : s.mark_mine c = s := by
      unfold Sentence.mark_mine
      rw [if_neg h]
    rw [h1, h1]

theorem Sentence.mark_safe_idem (s : Sentence) (c : Cell) :
    (s.mark_safe c).mark_safe c = s.mark_safe c := by
  by_cases h : c ∈ s.cells
  · have h1 : s.mark_safe c = ⟨s.cells.erase c, s.count⟩ := by
      unfold Sentence.mark_safe
      rw [if_pos h]
    rw [h1]
    unfold Sentence.mark_safe
    rw [if_neg (Finset.not_mem_erase c s.cells)]
  · have h1 : s.mark_safe c = s := by
      unfold Sentence.mark_safe
      rw [if_neg h]
    rw [h1, h1]

theorem make_random_move_spec (st : AI) (pick : Nat) :
    (st.make_random_move pick = none
        ↔ gridCells st \ (st.moves_made ∪ st.mines) = ∅)
      ∧ ∀ c : Cell, st.make_random_move pick = some c →
          c ∈ gridCells st \ (st.moves_made ∪ st.mines) := by
  unfold AI.make_random_move
  by_cases hE : (choicesList st).isEmpty
  · rw [if_pos hE]
    have hnil : choicesList st = [] := List.isEmpty_iff.mp hE
    refine ⟨⟨fun _ => ?_, fun _ => rfl⟩, fun c hc => absurd hc (by simp)⟩
    rw [← choicesList_toFinset, hnil]
    rfl
  · rw [if_neg hE]
    have hne : choicesList st ≠ [] := fun h => hE (by rw [h]; rfl)
    have hlen : 0 < (choicesList st).length := List.length_pos.mpr hne
    have hidx : pick % (choicesList st).length < (choicesList st).length :=
      Nat.mod_lt _ hlen
    rw [List.getElem?_eq_getElem hidx]
    constructor
    · constructor
      · intro h
        exact absurd h (by simp)
      · intro h
        exfalso
        have hx : (choicesList st)[0] ∈ choicesList st := List.getElem_mem hlen
        have hx2 : (choicesList st)[0] ∈ (choicesList st).toFinset :=
          List.mem_toFinset.mpr hx
        rw [choicesList_toFinset, h] at hx2
        exact Finset.not_mem_empty _ hx2
    · intro c hc
      rw [Option.some_inj] at hc
      rw [← choicesList_toFinset, List.mem_toFinset, ← hc]
      exact List.getElem_mem hidx

theorem AI_mark_mine_idem (st : AI) (c : Cell) :
    (st.mark_mine c).mark_mine c = st.mark_mine c := by
  unfold AI.mark_mine
  simp only [AI.mk.injEq, Finset.insert_idem, true_and, and_true, eq_self_iff_true]
  exact map_comp_eq_map _ _ _ (fun s => Sentence.mark_mine_idem s c) st.knowledge

theorem AI_mark_safe_idem (st : AI) (c : Cell) :
    (st.mark_safe c).mark_safe c = st.mark_safe c := by
  unfold AI.mark_safe
  simp only [AI.mk.injEq, Finset.insert_idem, true_and, and_true, eq_self_iff_true]
  exact map_comp_eq_map _ _ _ (fun s => Sentence.mark_safe_idem s c) st.knowledge

/-- Safes and mines are monotone along any run of add_knowledge calls. -/
theorem carries_runFrom (st : AI) (obs : List (Cell × Int)) :
    st.safes ⊆ (runFrom st obs).safes ∧ st.mines ⊆ (runFrom st obs).mines := by
  induction obs generalizing st with
  | nil => exact ⟨Finset.Subset.refl _, Finset.Subset.refl _⟩
  | cons o t ih =>
    have hstep := add_knowledge_frame st o.1 o.2
    have hrec := ih (st.add_knowledge o.1 o.2)
    unfold runFrom at hrec ⊢
    rw [List.foldl_cons]
    constructor
    · exact ((Finset.subset_insert o.1 st.safes).trans hstep.2.2.2.1).trans hrec.1
    · exact hstep.2.2.2.2.trans hrec.2

/-- The grid dimensions are constant along any run of add_knowledge calls. -/
theorem dims_runFrom (st : AI) (obs : List (Cell × Int)) :
    (runFrom st obs).height = st.height ∧ (runFrom st obs).width = st.width := by
  induction obs generalizing st with
  | nil => exact ⟨rfl, rfl⟩
  | cons o t ih =>
    have hstep := add_knowledge_frame st o.1 o.2
    have hrec := ih (st.add_knowledge o.1 o.2)
    unfold runFrom at hrec ⊢
    rw [List.foldl_cons]
    exact ⟨hrec.1.trans hstep.1, hrec.2.trans hstep.2.1⟩

/-! Run-level invariant wrappers. -/

theorem faithful_runFrom {M : Finset Cell} {h w : Nat} :
    ∀ (obs : List (Cell × Int)) (st : AI), Faithful M st →
      st.height = h → st.width = w → (∀ o ∈ obs, ContractOK h w M o) →
      Faithful M (runFrom st obs) := by
  intro obs
  induction obs with
  | nil => intro st hF _ _ _; exact hF
  | cons o t ih =>
    intro st hF hh hw hobs
    unfold runFrom
    rw [List.foldl_cons]
    have hc : ContractOK st.height st.width M (o.1, o.2) := by
      rw [hh, hw]
      exact hobs o (List.mem_cons_self o t)
    have hF2 : Faithful M (st.add_knowledge o.1 o.2) := faithful_add_knowledge hF hc
    have hframe := add_knowledge_frame st o.1 o.2
    exact ih _ hF2 (hframe.1.trans hh) (hframe.2.1.trans hw)
      (fun o2 ho2 => hobs o2 (List.mem_cons_of_mem o ho2))

theorem moves_subset_safes_runFrom :
    ∀ (obs : List (Cell × Int)) (st : AI), st.moves_made ⊆ st.safes →
      (runFrom st obs).moves_made ⊆ (runFrom st obs).safes := by
  intro obs
  induction obs with
  | nil => intro st h; exact h
  | cons o t ih =>
    intro st h
    unfold runFrom
    rw [List.foldl_cons]
    apply ih
    have hframe := add_knowledge_frame st o.1 o.2
    rw [hframe.2.2.1]
    intro x hx
    rcases Finset.mem_insert.mp hx with rfl | hx
    · exact hframe.2.2.2.1 (Finset.mem_insert_self _ _)
    · exact hframe.2.2.2.1 (Finset.mem_insert_of_mem (h hx))

theorem kbbounded_runFrom :
    ∀ (obs : List (Cell × Int)) (st : AI), KBBounded st →
      KBBounded (runFrom st obs) := by
  intro obs
  induction obs with
  | nil => intro st h; exact h
  | cons o t ih =>
    intro st h
    unfold runFrom
    rw [List.foldl_cons]
    exact ih _ (kbbounded_add_knowledge h o.1 o.2)

/-! The claim theorems. -/

/-- Claim C1, counterexample: the pairwise-inference pass deduplicates only
against the batch of sentences derived in the same pass, not against the
whole knowledge base: on stC1 the derived sentence equal to the third
knowledge-base sentence is added again, leaving two value-equal sentences. -/
theorem c1_infer_dedup_counterexample :
    (⟨{((0 : Int), (1 : Int))}, 1⟩ : Sentence) ∈ stC1.knowledge
    ∧ stC1.infer_new_sentences.knowledge
        = stC1.knowledge
            ++ [⟨{((0 : Int), (1 : Int))}, 1⟩, ⟨{((0 : Int), (0 : Int))}, 0⟩] := by
  decide

/-- Claim C1 (amended): for every ordered pair of value-distinct sentences
(A, B) of the knowledge base with A.cells a subset of B.cells, the derived
sentence (B.cells minus A.cells, B.count minus A.count) is appended, with
deduplication only against the batch of sentences derived during the same
pass (an equal sentence already in the knowledge base does not block it);
the batch itself contains no two value-equal sentences, every batch member
arises from such a pair, and the pass appends exactly the batch. -/
theorem c1_infer_dedup_amended (st : AI) :
    st.infer_new_sentences.knowledge = st.knowledge ++ inferBatch st.knowledge
    ∧ (inferBatch st.knowledge).Nodup
    ∧ (∀ x ∈ inferBatch st.knowledge, ∃ s1 ∈ st.knowledge, ∃ s2 ∈ st.knowledge,
        s1 ≠ s2 ∧ s1.cells ⊆ s2.cells
          ∧ x = ⟨s2.cells \ s1.cells, s2.count - s1.count⟩)
    ∧ ∀ s1 ∈ st.knowledge, ∀ s2 ∈ st.knowledge, s1 ≠ s2 → s1.cells ⊆ s2.cells →
        (⟨s2.cells \ s1.cells, s2.count - s1.count⟩ : Sentence)
          ∈ inferBatch st.knowledge :=
  ⟨rfl, inferBatch_nodup _, fun _ hx => inferBatch_sound hx,
   fun _ h1 _ h2 hne hsub => inferBatch_complete h1 h2 hne hsub⟩

/-- Claim C1 witness: the amended completeness clause applied on stC1. -/
theorem c1_infer_dedup_amended_witness :
    (⟨({((0 : Int), (0 : Int)), ((0 : Int), (1 : Int))} : Finset Cell)
        \ {((0 : Int), (0 : Int))}, 1 - 0⟩ : Sentence) ∈ inferBatch stC1.knowledge :=
  (c1_infer_dedup_amended stC1).2.2.2
    ⟨{((0 : Int), (0 : Int))}, 0⟩ (by decide)
    ⟨{((0 : Int), (0 : Int)), ((0 : Int), (1 : Int))}, 1⟩ (by decide)
    (by decide) (by decide)

/-- Claim C2, counterexample: an out-of-bounds cell passed to add_knowledge
is not rejected; the call proceeds and updates the engine state, recording
the cell as a move and as safe. -/
theorem c2_oob_counterexample :
    ((initAI 3 3).add_knowledge (-1, -1) 0).moves_made = {((-1 : Int), (-1 : Int))}
    ∧ ((-1 : Int), (-1 : Int)) ∈ ((initAI 3 3).add_knowledge (-1, -1) 0).safes := by
  decide

/-- Claim C2 (amended): add_knowledge performs no bounds check: a call with
an out-of-bounds cell proceeds like any other, inserting the cell into
moves_made and into safes, with the neighbor computation silently clipped to
the grid; no error is signalled and the state is updated. -/
theorem c2_oob_amended (st : AI) (cell : Cell) (count : Int)
    (hoob : ¬ InBounds st.height st.width cell) :
    cell ∈ (st.add_knowledge cell count).moves_made
    ∧ cell ∈ (st.add_knowledge cell count).safes := by
  have hframe := add_knowledge_frame st cell count
  constructor
  · rw [hframe.2.2.1]
    exact Finset.mem_insert_self _ _
  · exact hframe.2.2.2.1 (Finset.mem_insert_self _ _)

/-- Claim C2 witness: the amended statement applied to a concrete
out-of-bounds call. -/
theorem c2_oob_amended_witness :
    ¬ InBounds (initAI 3 3).height (initAI 3 3).width (-1, -1)
    ∧ (((-1 : Int), (-1 : Int)) ∈ ((initAI 3 3).add_knowledge (-1, -1) 0).moves_made
       ∧ ((-1 : Int), (-1 : Int)) ∈ ((initAI 3 3).add_knowledge (-1, -1) 0).safes) :=
  ⟨by decide, c2_oob_amended (initAI 3 3) (-1, -1) 0 (by decide)⟩

/-- Claim C3: the update_knowledge saturation loop terminates on every
engine state: the loop run with fuel totalCells + 1 never exhausts its fuel
and returns exactly the update_knowledge result, because every repeating
iteration strictly shrinks the total number of cell occurrences across the
knowledge base. -/
theorem c3_update_loop_terminates (st : AI) :
    updateKnowledgeFuel (totalCells st.knowledge + 1) st
      = some st.update_knowledge := by
  have hs := updateFuel_isSome (totalCells st.knowledge + 1) st (Nat.lt_succ_self _)
  unfold AI.update_knowledge
  cases hE : updateKnowledgeFuel (totalCells st.knowledge + 1) st with
  | none =>
    rw [hE] at hs
    exact absurd hs (by simp)
  | some r => rw [Option.getD_some]

/-- Claim C4: under the caller contract relative to a ground-truth mine set,
no cell is ever both in safes and in mines after any run of
add_knowledge calls. -/
theorem c4_safes_mines_disjoint (h w : Nat) (M : Finset Cell)
    (obs : List (Cell × Int)) (hobs : ∀ o ∈ obs, ContractOK h w M o) (c : Cell) :
    ¬(c ∈ (runGame h w obs).safes ∧ c ∈ (runGame h w obs).mines) := by
  have hF : Faithful M (runGame h w obs) := by
    apply faithful_runFrom obs (initAI h w) ?_ rfl rfl hobs
    exact ⟨fun x hx => absurd hx (Finset.not_mem_empty x),
           Finset.empty_subset M, fun s hs => absurd hs (List.not_mem_nil s)⟩
  rintro ⟨hs, hm⟩
  exact hF.1 c hs (hF.2.1 hm)

/-- Claim C4 witness: a concrete contract-respecting run on a 2 by 2 grid
with one mine. -/
theorem c4_safes_mines_disjoint_witness :
    (∀ o ∈ ([(((0 : Int), (0 : Int)), 1)] : List (Cell × Int)),
        ContractOK 2 2 {((1 : Int), (1 : Int))} o)
    ∧ ¬(((1 : Int), (1 : Int)) ∈ (runGame 2 2 [(((0 : Int), (0 : Int)), 1)]).safes
        ∧ ((1 : Int), (1 : Int)) ∈ (runGame 2 2 [(((0 : Int), (0 : Int)), 1)]).mines) :=
  ⟨by decide,
   c4_safes_mines_disjoint 2 2 {((1 : Int), (1 : Int))}
     [(((0 : Int), (0 : Int)), 1)] (by decide) ((1 : Int), (1 : Int))⟩

/-- Claim C5: once a cell is in safes (respectively mines) it stays there
after every further sequence of add_knowledge calls. -/
theorem c5_monotonic (st : AI) (obs : List (Cell × Int)) (c : Cell) :
    (c ∈ st.safes → c ∈ (runFrom st obs).safes)
    ∧ (c ∈ st.mines → c ∈ (runFrom st obs).mines) :=
  ⟨fun h => (carries_runFrom st obs).1 h, fun h => (carries_runFrom st obs).2 h⟩

/-- Claim C5 witness: a cell marked safe by one call stays safe after a
further call. -/
theorem c5_monotonic_witness :
    ((0 : Int), (0 : Int)) ∈ ((initAI 2 2).add_knowledge (0, 0) 0).safes
    ∧ ((0 : Int), (0 : Int))
        ∈ (runFrom ((initAI 2 2).add_knowledge (0, 0) 0) [((1, 1), 0)]).safes :=
  ⟨by decide,
   (c5_monotonic ((initAI 2 2).add_knowledge (0, 0) 0) [((1, 1), 0)] (0, 0)).1
     (by decide)⟩

/-- Claim C6, counterexample: with sentences A and B of the scenario in the
knowledge base, the add_knowledge call whose inference pass derives the
singleton sentence for (0, 2) with count 0 does not place (0, 2) in safes
within that same call, because update_knowledge runs before the inference
pass. -/
theorem c6_subset_inference_counterexample :
    (⟨{((0 : Int), (2 : Int))}, 0⟩ : Sentence) ∈ (stC6.add_knowledge (4, 4) 0).knowledge
    ∧ ((0 : Int), (2 : Int)) ∉ (stC6.add_knowledge (4, 4) 0).safes := by
  decide

/-- Claim C6 (amended): the inference pass of the call derives the sentence
with cells containing exactly (0, 2) and count 0 and appends it to the
knowledge base, but (0, 2) enters safes only during the saturation loop of
the next add_knowledge call. -/
theorem c6_subset_inference_amended :
    (⟨{((0 : Int), (2 : Int))}, 0⟩ : Sentence) ∈ (stC6.add_knowledge (4, 4) 0).knowledge
    ∧ ((0 : Int), (2 : Int)) ∉ (stC6.add_knowledge (4, 4) 0).safes
    ∧ ((0 : Int), (2 : Int))
        ∈ ((stC6.add_knowledge (4, 4) 0).add_knowledge (4, 4) 0).safes := by
  have h1 : stC6.add_knowledge (4, 4) 0 = stC6r := by decide
  rw [h1]
  refine ⟨by decide, by decide, by decide⟩

/-- Claim C7: the candidate set of make_random_move is exactly the grid
minus moves_made and mines; the call returns none exactly when that set is
empty, and any returned cell belongs to that set, for every random pick. -/
theorem c7_random_move (st : AI) (pick : Nat) :
    (choicesList st).toFinset = gridCells st \ (st.moves_made ∪ st.mines)
    ∧ (st.make_random_move pick = none
        ↔ gridCells st \ (st.moves_made ∪ st.mines) = ∅)
    ∧ ∀ c : Cell, st.make_random_move pick = some c →
        c ∈ gridCells st \ (st.moves_made ∪ st.mines) :=
  ⟨choicesList_toFinset st, (make_random_move_spec st pick).1,
   (make_random_move_spec st pick).2⟩

/-- Claim C7 witness: on a fresh 1 by 1 grid the returned cell lies in the
candidate set. -/
theorem c7_random_move_witness :
    ((0 : Int), (0 : Int))
      ∈ gridCells (initAI 1 1) \ ((initAI 1 1).moves_made ∪ (initAI 1 1).mines) :=
  (c7_random_move (initAI 1 1) 0).2.2 (0, 0) (by decide)

/-- Claim C8: marking a cell as a mine twice leaves the whole engine state
exactly as marking it once, and likewise for marking safe. -/
theorem c8_mark_idempotent (st : AI) (c : Cell) :
    (st.mark_mine c).mark_mine c = st.mark_mine c
    ∧ (st.mark_safe c).mark_safe c = st.mark_safe c :=
  ⟨AI_mark_mine_idem st c, AI_mark_safe_idem st c⟩

/-- Claim C9: after any run of add_knowledge calls from a fresh engine,
every recorded move is also marked safe. -/
theorem c9_moves_subset_safes (h w : Nat) (obs : List (Cell × Int)) :
    (runGame h w obs).moves_made ⊆ (runGame h w obs).safes :=
  moves_subset_safes_runFrom obs (initAI h w) (Finset.empty_subset _)

/-- Claim C9 witness: the observed cell of a concrete run is in safes. -/
theorem c9_moves_subset_safes_witness :
    ((0 : Int), (0 : Int)) ∈ (runGame 2 2 [(((0 : Int), (0 : Int)), 0)]).safes :=
  c9_moves_subset_safes 2 2 [(((0 : Int), (0 : Int)), 0)] (by decide)

/-- Claim C10: after any run of add_knowledge calls from a fresh engine,
with arbitrary (possibly out-of-bounds) observed cells, every cell of every
sentence of the knowledge base lies inside the grid. -/
theorem c10_sentences_in_bounds (h w : Nat) (obs : List (Cell × Int)) :
    ∀ s ∈ (runGame h w obs).knowledge, ∀ c ∈ s.cells, InBounds h w c := by
  have hB : KBBounded (runGame h w obs) :=
    kbbounded_runFrom obs (initAI h w) (fun s hs => absurd hs (List.not_mem_nil s))
  have hd := dims_runFrom (initAI h w) obs
  intro s hs c hc
  have hx : InBounds (runFrom (initAI h w) obs).height
      (runFrom (initAI h w) obs).width c := hB s hs c hc
  rw [hd.1, hd.2] at hx
  exact hx

/-- Claim C10 witness: a sentence cell of a concrete run is in bounds. -/
theorem c10_sentences_in_bounds_witness :
    InBounds 2 2 ((0 : Int), (1 : Int)) :=
  c10_sentences_in_bounds 2 2 [(((0 : Int), (0 : Int)), 1)]
    ⟨{((0 : Int), (1 : Int)), ((1 : Int), (0 : Int)), ((1 : Int), (1 : Int))}, 1⟩
    (by decide) ((0 : Int), (1 : Int)) (by decide)
